import Mathlib

/-!
# Shot synchronization and acceptance engine of `e6-daq-deploy.py`

A shallow embedding of the multi-stream shot synchronization and acceptance
engine: the JKAM (reference) handler `JkamH5FileHandler.process_file`, the
FPGA handler `BinFileHandler` (`process_file` / `rerun_acceptance`), the
GageScope handler `GageScopeH5FileHandler` (`process_file` /
`rerun_acceptance_gage`) and the Red Pitaya handler `RedPitayaFileHandler`
(`process_file` / `rerun_acceptance_rp`).

Timestamps (`os.path.getctime` values, i.e. Python floats) are modelled as
rationals; file paths are modelled as natural-number identifiers.  GUI
side-effects (tables, charts) are dropped; `print` diagnostics are modelled
as an explicit log of shot indices, in emission order.
-/

namespace JkamDaq

/-- `np.min` of a nonempty list (0 for the empty list, which the code never
takes the minimum of). -/
def listMin : List ℚ → ℚ
  | [] => 0
  | x :: xs => xs.foldl min x

/-- Auxiliary loop for `idxOfMin`: scan the remaining list, keeping the
current best value and the first index achieving it. -/
def idxOfMinAux : List ℚ → ℕ → ℚ → ℕ → ℕ
  | [], _, _, best => best
  | x :: xs, i, bv, best =>
      if x < bv then idxOfMinAux xs (i + 1) x i else idxOfMinAux xs (i + 1) bv best

/-- `np.argmin`: the first index achieving the minimum of a nonempty list
(0 for the empty list). -/
def idxOfMin : List ℚ → ℕ
  | [] => 0
  | x :: xs => idxOfMinAux xs 1 x 0

/-- Pad a boolean list with `false` up to length `n`
(`self.final_accepted += [False] * (num_shots - len(self.final_accepted))`). -/
def padFalse (l : List Bool) (n : ℕ) : List Bool :=
  l ++ List.replicate (n - l.length) false

/-- One step of the cumulative-series loop shared by the FPGA, GageScope and
Red Pitaya handlers.  State: `(series so far, current_count, highest_count)`.
Code:
`if mask: if not cum or cum[-1] == 0: cur = high + 1 else: cur += 1;`
`high = max(high, cur); cum.append(cur) else: cum.append(0)`. -/
def cumStep (st : List ℕ × ℕ × ℕ) (b : Bool) : List ℕ × ℕ × ℕ :=
  let series := st.1
  let cur := st.2.1
  let high := st.2.2
  if b then
    let cur' := if series = [] ∨ series.getLast? = some 0 then high + 1 else cur + 1
    (series ++ [cur'], cur', max high cur')
  else
    (series ++ [0], cur, high)

/-- The cumulative series recomputed from an acceptance-flag sequence, with
`current_count` and `highest_count` starting at 0 (as at the top of each
rerun). -/
def cumulativeSeries (flags : List Bool) : List ℕ :=
  (flags.foldl cumStep ([], 0, 0)).1

/-!
## JKAM (reference) handler
-/

/-- State of `JkamH5FileHandler` relevant to the engine: processed file
paths, creation times (`jkam_creation_time_array`, whose entries are also
the values of `time_temp_dict`), the space-correct flags (values of
`shots_dict`), the handler's own cumulative series with its
`last_passed_idx`, and the `avg_time_gap` attribute published for the Red
Pitaya handler. -/
structure JkamState where
  files : List ℕ
  times : List ℚ
  flags : List Bool
  cumulative : List ℕ
  lastPassedIdx : ℕ
  avgTimeGap : ℚ
  deriving Repr, DecidableEq

def JkamState.init : JkamState :=
  { files := [], times := [], flags := [], cumulative := [], lastPassedIdx := 0,
    avgTimeGap := 0 }

/-- `JkamH5FileHandler.process_file`: skip already-seen paths; otherwise
append the creation time, recompute `jkam_avg_time_gap` from the full span
(`abs((time_temp - start_time) / shots_num)`, 0 on the first arrival),
compute the space-correct flag
(`abs(t - prev - gap) > 0.2 * gap` makes it `False` when `shots_num > 0`),
and extend the handler's own cumulative series. -/
def jkamProcess (s : JkamState) (p : ℕ) (t : ℚ) : JkamState :=
  if p ∈ s.files then s
  else
    let n := s.times.length
    let gap := if n = 0 then 0 else |(t - s.times.headD 0) / (n : ℚ)|
    let sc : Bool :=
      if n = 0 then true
      else decide (|t - s.times.getLastD 0 - gap| ≤ (1 / 5) * gap)
    let newVal : ℕ :=
      if n = 0 then 1
      else if sc then
        (if s.cumulative = [] then 1 else s.cumulative.getD s.lastPassedIdx 0 + 1)
      else 0
    { files := s.files ++ [p]
      times := s.times ++ [t]
      flags := s.flags ++ [sc]
      cumulative := s.cumulative ++ [newVal]
      lastPassedIdx := if sc then n else s.lastPassedIdx
      avgTimeGap := gap }

/-!
## Per-shot result of one acceptance loop iteration (secondary handlers)
-/

/-- Result of one iteration of a secondary handler's acceptance loop:
the `mask_valid_data` entry, the matchlist entry, the `final_accepted`
entry afterwards, and whether this iteration's rejection branch prints a
diagnostic. -/
structure ShotRes where
  mask : Bool
  matched : ℤ
  fin : Bool
  err : Bool
  deriving Repr, DecidableEq

/-- The deduplicated diagnostic loop of the FPGA and GageScope handlers:
for each error index in order, print it (append to the log) only if it is
not yet in the reported set, then add it to the set. -/
def emitFold (ks : List ℕ) (rep log : List ℕ) : List ℕ × List ℕ :=
  ks.foldl (fun p k => if k ∈ p.1 then p else (p.1 ++ [k], p.2 ++ [k])) (rep, log)

/-!
## FPGA (`.bin`) handler
-/

/-- `BinFileHandler`'s period estimate:
`abs(abs(last - first) / (num_shots - 1))`, 0 with at most one shot. -/
def binGap (times : List ℚ) : ℚ :=
  if times.length ≤ 1 then 0
  else |times.getLastD 0 - times.headD 0| / ((times.length - 1 : ℕ) : ℚ)

/-- One iteration of `BinFileHandler.rerun_acceptance`'s loop at index `k`:
locked shots short-circuit to accepted (leaving the freshly reset matchlist
entry at -1); otherwise, when JKAM data exists at `k`, either the
`avg_time_gap == 0` same-index branch or the nearest-match branch
(`min |fpga_ctimes - jkam_time| <= 0.3 * avg_time_gap and space_correct`)
runs, where `jkam_time` and `space_correct` are the JKAM entries at `k`
and `avg_time_gap` is the FPGA stream's own estimate. -/
def binAccept1 (jv : JkamState) (times : List ℚ) (gap : ℚ) (faK : Bool) (k : ℕ) :
    ShotRes :=
  if faK then ⟨true, -1, true, false⟩
  else if k < jv.times.length then
    let jt := jv.times.getD k 0
    let sc := jv.flags.getD k false
    if gap = 0 then
      if sc then ⟨true, (k : ℤ), true, false⟩ else ⟨false, -1, false, false⟩
    else
      let diffs := times.map (fun x => |x - jt|)
      if listMin diffs ≤ (3 / 10) * gap ∧ sc then
        ⟨true, (idxOfMin diffs : ℤ), true, false⟩
      else ⟨false, -1, false, true⟩
  else ⟨false, -1, false, false⟩

/-- State of `BinFileHandler`. `reported` is `fpga_error_shots_reported`
(insertion order kept); `log` is the sequence of emitted
"FPGA error at shot k" diagnostics. -/
structure BinState where
  files : List ℕ
  times : List ℚ
  finalAccepted : List Bool
  mask : List Bool
  matchlist : List ℤ
  cumulative : List ℕ
  avgTimeGap : ℚ
  reported : List ℕ
  log : List ℕ
  deriving Repr, DecidableEq

def BinState.init : BinState :=
  { files := [], times := [], finalAccepted := [], mask := [], matchlist := [],
    cumulative := [], avgTimeGap := 0, reported := [], log := [] }

/-- `BinFileHandler.rerun_acceptance`: pad `final_accepted`, recompute the
FPGA period, rebuild `mask_valid_data` / `jkam_fpga_matchlist` /
`final_accepted` index by index (each index depends only on its own prior
ledger entry), emit deduplicated diagnostics, and recompute the cumulative
series from the fresh mask. -/
def binRerun (jv : JkamState) (s : BinState) : BinState :=
  let n := s.times.length
  let fa0 := padFalse s.finalAccepted n
  let gap := binGap s.times
  let res := fun k => binAccept1 jv s.times gap (fa0.getD k false) k
  let mask := (List.range n).map (fun k => (res k).mask)
  let errKs := (List.range n).filter (fun k => (res k).err)
  let rl := emitFold errKs s.reported s.log
  { s with
    finalAccepted :=
      (List.range fa0.length).map (fun k => if k < n then (res k).fin else fa0.getD k false)
    mask := mask
    matchlist := (List.range n).map (fun k => (res k).matched)
    cumulative := cumulativeSeries mask
    avgTimeGap := gap
    reported := rl.1
    log := rl.2 }

/-- `BinFileHandler.process_file`: skip already-seen paths, else record the
arrival and rerun acceptance. -/
def binProcess (jv : JkamState) (s : BinState) (p : ℕ) (t : ℚ) : BinState :=
  if p ∈ s.files then s
  else binRerun jv { s with files := s.files ++ [p], times := s.times ++ [t] }

/-!
## GageScope (`.h5`) handler
-/

/-- `GageScopeH5FileHandler`'s period estimate:
`(last - first) / (num_shots - 1)` — note: no absolute value, unlike the
JKAM and FPGA estimates. -/
def gageGap (times : List ℚ) : ℚ :=
  if times.length ≤ 1 then 0
  else (times.getLastD 0 - times.headD 0) / ((times.length - 1 : ℕ) : ℚ)

/-- One iteration of `GageScopeH5FileHandler.rerun_acceptance_gage`'s loop:
like the FPGA one but the `space_correct` test wraps both branches, and a
space-incorrect shot is rejected without a diagnostic. -/
def gageAccept1 (jv : JkamState) (times : List ℚ) (gap : ℚ) (faK : Bool) (k : ℕ) :
    ShotRes :=
  if faK then ⟨true, -1, true, false⟩
  else if k < jv.times.length then
    let jt := jv.times.getD k 0
    let sc := jv.flags.getD k false
    if sc then
      if gap = 0 then ⟨true, (k : ℤ), true, false⟩
      else
        let diffs := times.map (fun x => |x - jt|)
        if listMin diffs ≤ (3 / 10) * gap then
          ⟨true, (idxOfMin diffs : ℤ), true, false⟩
        else ⟨false, -1, false, true⟩
    else ⟨false, -1, false, false⟩
  else ⟨false, -1, false, false⟩

/-- State of `GageScopeH5FileHandler` (duplicate detection is by creation
time, so no path list is needed). -/
structure GageState where
  times : List ℚ
  finalAccepted : List Bool
  mask : List Bool
  matchlist : List ℤ
  cumulative : List ℕ
  avgTimeGap : ℚ
  reported : List ℕ
  log : List ℕ
  deriving Repr, DecidableEq

def GageState.init : GageState :=
  { times := [], finalAccepted := [], mask := [], matchlist := [],
    cumulative := [], avgTimeGap := 0, reported := [], log := [] }

/-- `GageScopeH5FileHandler.rerun_acceptance_gage`. -/
def gageRerun (jv : JkamState) (s : GageState) : GageState :=
  let n := s.times.length
  let fa0 := padFalse s.finalAccepted n
  let gap := gageGap s.times
  let res := fun k => gageAccept1 jv s.times gap (fa0.getD k false) k
  let mask := (List.range n).map (fun k => (res k).mask)
  let errKs := (List.range n).filter (fun k => (res k).err)
  let rl := emitFold errKs s.reported s.log
  { s with
    finalAccepted :=
      (List.range fa0.length).map (fun k => if k < n then (res k).fin else fa0.getD k false)
    mask := mask
    matchlist := (List.range n).map (fun k => (res k).matched)
    cumulative := cumulativeSeries mask
    avgTimeGap := gap
    reported := rl.1
    log := rl.2 }

/-- `GageScopeH5FileHandler.process_file`: skip already-seen creation
times, else record the arrival and rerun acceptance. -/
def gageProcess (jv : JkamState) (s : GageState) (t : ℚ) : GageState :=
  if t ∈ s.times then s
  else gageRerun jv { s with times := s.times ++ [t] }

/-!
## Red Pitaya (`.txt`) handler
-/

/-- One iteration of `RedPitayaFileHandler.rerun_acceptance_rp`'s loop:
a shot with no extractable timestamps is rejected silently; otherwise,
with JKAM data at `k` and `space_correct`, accept iff the JKAM stream's
`avg_time_gap` is nonzero and the minimum distance from the shot's own
time list to the JKAM time at `k` is within `0.3 * jkam_avg_time_gap`.
Both rejection branches print `"error at k"` — with no deduplication. -/
def rpAccept1 (jv : JkamState) (rpT : Option (List ℚ)) (faK : Bool) (k : ℕ) :
    ShotRes :=
  if faK then ⟨true, -1, true, false⟩
  else
    match rpT with
    | none => ⟨false, -1, false, false⟩
    | some l =>
      if l = [] then ⟨false, -1, false, false⟩
      else if k < jv.times.length then
        let tt := jv.times.getD k 0
        let sc := jv.flags.getD k false
        if sc then
          let diffs := l.map (fun x => |x - tt|)
          if jv.avgTimeGap ≠ 0 ∧ listMin diffs ≤ (3 / 10) * jv.avgTimeGap then
            ⟨true, (idxOfMin diffs : ℤ), true, false⟩
          else ⟨false, -1, false, true⟩
        else ⟨false, -1, false, true⟩
      else ⟨false, -1, false, false⟩

/-- State of `RedPitayaFileHandler`: `timesList` is `rp_times_list`
(`None` for empty/unloadable files); `log` the emitted `"error at k"`
diagnostics. -/
structure RpState where
  files : List ℕ
  timesList : List (Option (List ℚ))
  finalAccepted : List Bool
  mask : List Bool
  matchlist : List ℤ
  cumulative : List ℕ
  log : List ℕ
  deriving Repr, DecidableEq

def RpState.init : RpState :=
  { files := [], timesList := [], finalAccepted := [], mask := [], matchlist := [],
    cumulative := [], log := [] }

/-- `RedPitayaFileHandler.rerun_acceptance_rp`: like the others, but the
match uses the JKAM stream's `avg_time_gap`, the cumulative series is
threaded through the same loop (equivalently, recomputed from the mask),
and every rejection with JKAM data present prints — on every rerun. -/
def rpRerun (jv : JkamState) (s : RpState) : RpState :=
  let n := s.files.length
  let fa0 := padFalse s.finalAccepted n
  let res := fun k => rpAccept1 jv (s.timesList.getD k none) (fa0.getD k false) k
  let mask := (List.range n).map (fun k => (res k).mask)
  let errKs := (List.range n).filter (fun k => (res k).err)
  { s with
    finalAccepted :=
      (List.range fa0.length).map (fun k => if k < n then (res k).fin else fa0.getD k false)
    mask := mask
    matchlist := (List.range n).map (fun k => (res k).matched)
    cumulative := cumulativeSeries mask
    log := s.log ++ errKs }

/-- `RedPitayaFileHandler.process_file`: skip already-seen paths, else
append the path and its extracted time list (or `none`) and rerun. -/
def rpProcess (jv : JkamState) (s : RpState) (p : ℕ) (ts : Option (List ℚ)) : RpState :=
  if p ∈ s.files then s
  else rpRerun jv { s with files := s.files ++ [p], timesList := s.timesList ++ [ts] }

/-!
## The whole system
-/

/-- One artifact arrival, as dispatched by
`FileProcessorGUI.process_one_file`: a JKAM/FPGA/GageScope file is a path
id plus its creation time; a Red Pitaya file carries its extracted
first-column time list (`none` for empty/unloadable files). -/
inductive Event where
  | jkam (p : ℕ) (t : ℚ)
  | fpga (p : ℕ) (t : ℚ)
  | gage (p : ℕ) (t : ℚ)
  | rp (p : ℕ) (ts : Option (List ℚ))
  deriving Repr, DecidableEq

/-- The four handlers owned by `FileProcessorGUI`. -/
structure SysState where
  jkam : JkamState
  bin : BinState
  gage : GageState
  rp : RpState
  deriving Repr, DecidableEq

def SysState.init : SysState :=
  { jkam := JkamState.init, bin := BinState.init, gage := GageState.init,
    rp := RpState.init }

/-- Dispatch one arrival to its handler.  Only the receiving handler's
state changes; secondary handlers read the JKAM handler's state live. -/
def step (s : SysState) : Event → SysState
  | .jkam p t => { s with jkam := jkamProcess s.jkam p t }
  | .fpga p t => { s with bin := binProcess s.jkam s.bin p t }
  | .gage _ t => { s with gage := gageProcess s.jkam s.gage t }
  | .rp p ts => { s with rp := rpProcess s.jkam s.rp p ts }

/-- Process a sequence of arrivals in order. -/
def run (s : SysState) (es : List Event) : SysState :=
  es.foldl step s

/-!
## Specification-side definitions

Pure per-index restatements of quantities the engine computes
incrementally, used to state the claims.
-/

/-- The space-correct flag of reference shot `i`, as a pure function of the
full reference time list: shot 0 is always space-correct; shot `i > 0` is
space-correct iff `|t_i - t_(i-1) - p| <= (1/5) * p` where
`p = |t_i - t_0| / i` is the period estimate right after arrival `i`. -/
def spaceCorrectSpec (ts : List ℚ) (i : ℕ) : Bool :=
  if i = 0 then true
  else
    decide (|ts.getD i 0 - ts.getD (i - 1) 0 - |ts.getD i 0 - ts.getD 0 0| / (i : ℚ)| ≤
      (1 / 5) * (|ts.getD i 0 - ts.getD 0 0| / (i : ℚ)))

/-- One step of the cumulative-series state machine as the specification
words it: a rejected index gets 0; an accepted index whose previous series
value is 0 (or which is index 0) gets `record_high + 1`; any other
accepted index gets `previous_value + 1`; `record_high` becomes
`max record_high new_value` after each step. State: `(series, record_high)`. -/
def cumSpecStep (st : List ℕ × ℕ) (b : Bool) : List ℕ × ℕ :=
  let series := st.1
  let high := st.2
  if b then
    let v := if series = [] ∨ series.getLast? = some 0 then high + 1
             else series.getLastD 0 + 1
    (series ++ [v], max high v)
  else (series ++ [0], max high 0)

/-- The cumulative series produced by the specification's state machine. -/
def cumSpecSeries (flags : List Bool) : List ℕ :=
  (flags.foldl cumSpecStep ([], 0)).1

/-- The `record_high` watermark after consuming a flag sequence. -/
def recordHigh (flags : List Bool) : ℕ :=
  (flags.foldl cumSpecStep ([], 0)).2

/-!
## Concrete arrival sequences used as test inputs
-/

/-- Scenario B of the specification: reference arrivals `[0, 1, 5]`. -/
def scenarioB : List Event :=
  [Event.jkam 0 0, Event.jkam 1 1, Event.jkam 2 5]

/-- Reference at `t = 0` and `t = 10`; FPGA at `t = 0` and `t = 1/5`.
The second FPGA shot is numerically close to reference shot 0 but the code
rejects it, because it measures FPGA times against the reference time at
index 1 using the FPGA stream's own (tiny) period. -/
def nearestMatchEvents : List Event :=
  [Event.jkam 0 0, Event.jkam 1 10, Event.fpga 10 0, Event.fpga 11 (1 / 5)]

/-- Two FPGA shots arrive before any reference data, then two reference
shots, then a third FPGA shot: on the final rerun FPGA shots 0 and 1 are
both accepted and both record matched index 0. -/
def injectivityEvents : List Event :=
  [Event.fpga 0 0, Event.fpga 1 100, Event.jkam 0 0, Event.jkam 1 1,
   Event.fpga 2 200]

/-- One reference arrival, then two Red Pitaya files whose timestamps are
far from it: Red Pitaya shot 0 is rejected on both recomputation passes
and its diagnostic is printed both times. -/
def rpLogEvents : List Event :=
  [Event.jkam 0 0, Event.rp 0 (some [100]), Event.rp 1 (some [100])]

/-- Two GageScope arrivals with decreasing creation times. -/
def gagePeriodEvents : List Event :=
  [Event.gage 0 5, Event.gage 1 0]

/-- Scenario C of the specification: FPGA shot 0 is accepted while no
period regression has occurred; the later events are a reference outlier
and another FPGA arrival, after which shot 0 must stay accepted. -/
def stickyBaseEvents : List Event :=
  [Event.jkam 0 0, Event.fpga 0 0]

/-- The continuation of `stickyBaseEvents`: an outlier reference arrival
and a further FPGA arrival forcing a full recomputation. -/
def stickyMoreEvents : List Event :=
  [Event.jkam 1 1000, Event.fpga 1 1]

/-- A concrete JKAM handler state (reference times `[0, 10]`, both shots
space-correct), used to instantiate general theorems. -/
def witnessJkam : JkamState :=
  { files := [0, 1], times := [0, 10], flags := [true, true], cumulative := [1, 2],
    lastPassedIdx := 1, avgTimeGap := 10 }

/-- A concrete FPGA handler state (times `[0, 1/5]`, shot 0 locked),
used to instantiate general theorems. -/
def witnessBin : BinState :=
  { files := [10, 11], times := [0, 1 / 5], finalAccepted := [true, false],
    mask := [true, false], matchlist := [-1, -1], cumulative := [1, 0],
    avgTimeGap := 1 / 5, reported := [1], log := [1] }

/-- A concrete GageScope handler state mirroring `witnessBin`. -/
def witnessGage : GageState :=
  { times := [0, 1 / 5], finalAccepted := [true, false], mask := [true, false],
    matchlist := [-1, -1], cumulative := [1, 0], avgTimeGap := 1 / 5,
    reported := [1], log := [1] }

/-!
## Generic list lemmas
-/

lemma getD_map_range {α : Type} (f : ℕ → α) (n k : ℕ) (d : α) :
    ((List.range n).map f).getD k d = if k < n then f k else d := by
  by_cases h : k < n
  · rw [List.getD_eq_getElem _ _ (by simpa using h), if_pos h]
    simp
  · rw [List.getD_eq_default _ _ (by simpa using Nat.le_of_not_lt h), if_neg h]

lemma padFalse_getD (l : List Bool) (n k : ℕ) :
    (padFalse l n).getD k false = l.getD k false := by
  unfold padFalse
  by_cases h : k < l.length
  · exact List.getD_append _ _ _ _ h
  · rw [List.getD_append_right _ _ _ _ (Nat.le_of_not_lt h),
      List.getD_eq_default _ _ (Nat.le_of_not_lt h),
      List.getD_eq_getD_get?, List.get?_eq_getElem?,
      List.getElem?_getD_replicate_default_eq]

lemma padFalse_length (l : List Bool) (n : ℕ) :
    (padFalse l n).length = max l.length n := by
  simp only [padFalse, List.length_append, List.length_replicate]
  omega

lemma getD_true_lt_length (l : List Bool) (k : ℕ) (h : l.getD k false = true) :
    k < l.length := by
  by_contra hk
  rw [List.getD_eq_default _ _ (Nat.le_of_not_lt hk)] at h
  exact Bool.false_ne_true h

lemma headD_eq_getD_zero {α : Type} (l : List α) (d : α) (h : l ≠ []) :
    l.headD d = l.getD 0 d := by
  cases l with
  | nil => exact absurd rfl h
  | cons a t => rfl

lemma getLastD_eq_getD (l : List ℚ) (h : l ≠ []) :
    ∀ d, l.getLastD d = l.getD (l.length - 1) d := by
  induction l with
  | nil => exact absurd rfl h
  | cons a t ih =>
    intro d
    cases t with
    | nil => rfl
    | cons b u =>
      rw [List.getLastD_cons, ih (by simp) a]
      have : (a :: b :: u).length - 1 = ((b :: u).length - 1) + 1 := by
        simp
      rw [this, List.getD_cons_succ,
        List.getD_eq_getElem _ _ (by simp only [List.length_cons]; omega),
        List.getD_eq_getElem _ _ (by simp only [List.length_cons]; omega)]

/-!
## Per-index characterization of the recomputation passes
-/

lemma binRerun_mask_getD (jv : JkamState) (s : BinState) (k : ℕ) :
    (binRerun jv s).mask.getD k false =
      if k < s.times.length then
        (binAccept1 jv s.times (binGap s.times)
          ((padFalse s.finalAccepted s.times.length).getD k false) k).mask
      else false :=
  getD_map_range _ _ _ _

lemma binRerun_matchlist_getD (jv : JkamState) (s : BinState) (k : ℕ) (d : ℤ) :
    (binRerun jv s).matchlist.getD k d =
      if k < s.times.length then
        (binAccept1 jv s.times (binGap s.times)
          ((padFalse s.finalAccepted s.times.length).getD k false) k).matched
      else d :=
  getD_map_range _ _ _ _

lemma binRerun_fa_getD (jv : JkamState) (s : BinState) (k : ℕ) :
    (binRerun jv s).finalAccepted.getD k false =
      if k < (padFalse s.finalAccepted s.times.length).length then
        (if k < s.times.length then
          (binAccept1 jv s.times (binGap s.times)
            ((padFalse s.finalAccepted s.times.length).getD k false) k).fin
         else (padFalse s.finalAccepted s.times.length).getD k false)
      else false :=
  getD_map_range _ _ _ _

lemma gageRerun_mask_getD (jv : JkamState) (s : GageState) (k : ℕ) :
    (gageRerun jv s).mask.getD k false =
      if k < s.times.length then
        (gageAccept1 jv s.times (gageGap s.times)
          ((padFalse s.finalAccepted s.times.length).getD k false) k).mask
      else false :=
  getD_map_range _ _ _ _

lemma gageRerun_matchlist_getD (jv : JkamState) (s : GageState) (k : ℕ) (d : ℤ) :
    (gageRerun jv s).matchlist.getD k d =
      if k < s.times.length then
        (gageAccept1 jv s.times (gageGap s.times)
          ((padFalse s.finalAccepted s.times.length).getD k false) k).matched
      else d :=
  getD_map_range _ _ _ _

lemma gageRerun_fa_getD (jv : JkamState) (s : GageState) (k : ℕ) :
    (gageRerun jv s).finalAccepted.getD k false =
      if k < (padFalse s.finalAccepted s.times.length).length then
        (if k < s.times.length then
          (gageAccept1 jv s.times (gageGap s.times)
            ((padFalse s.finalAccepted s.times.length).getD k false) k).fin
         else (padFalse s.finalAccepted s.times.length).getD k false)
      else false :=
  getD_map_range _ _ _ _

lemma rpRerun_mask_getD (jv : JkamState) (s : RpState) (k : ℕ) :
    (rpRerun jv s).mask.getD k false =
      if k < s.files.length then
        (rpAccept1 jv (s.timesList.getD k none)
          ((padFalse s.finalAccepted s.files.length).getD k false) k).mask
      else false :=
  getD_map_range _ _ _ _

lemma rpRerun_fa_getD (jv : JkamState) (s : RpState) (k : ℕ) :
    (rpRerun jv s).finalAccepted.getD k false =
      if k < (padFalse s.finalAccepted s.files.length).length then
        (if k < s.files.length then
          (rpAccept1 jv (s.timesList.getD k none)
            ((padFalse s.finalAccepted s.files.length).getD k false) k).fin
         else (padFalse s.finalAccepted s.files.length).getD k false)
      else false :=
  getD_map_range _ _ _ _

/-- A locked shot short-circuits every acceptance loop. -/
lemma binAccept1_locked (jv : JkamState) (ts : List ℚ) (gap : ℚ) (k : ℕ) :
    binAccept1 jv ts gap true k = ⟨true, -1, true, false⟩ := rfl

lemma gageAccept1_locked (jv : JkamState) (ts : List ℚ) (gap : ℚ) (k : ℕ) :
    gageAccept1 jv ts gap true k = ⟨true, -1, true, false⟩ := rfl

lemma rpAccept1_locked (jv : JkamState) (rpT : Option (List ℚ)) (k : ℕ) :
    rpAccept1 jv rpT true k = ⟨true, -1, true, false⟩ := rfl

/-- In every handler, the mask bit written at an index equals the ledger
bit written at that index. -/
lemma binAccept1_mask_eq_fin (jv : JkamState) (ts : List ℚ) (gap : ℚ) (fa : Bool) (k : ℕ) :
    (binAccept1 jv ts gap fa k).mask = (binAccept1 jv ts gap fa k).fin := by
  simp only [binAccept1]
  repeat' split
  all_goals rfl

lemma gageAccept1_mask_eq_fin (jv : JkamState) (ts : List ℚ) (gap : ℚ) (fa : Bool) (k : ℕ) :
    (gageAccept1 jv ts gap fa k).mask = (gageAccept1 jv ts gap fa k).fin := by
  simp only [gageAccept1]
  repeat' split
  all_goals rfl

lemma rpAccept1_mask_eq_fin (jv : JkamState) (rpT : Option (List ℚ)) (fa : Bool) (k : ℕ) :
    (rpAccept1 jv rpT fa k).mask = (rpAccept1 jv rpT fa k).fin := by
  simp only [rpAccept1]
  repeat' split
  all_goals rfl

/-!
## Monotonicity of the acceptance ledgers
-/

lemma binRerun_fa_mono (jv : JkamState) (s : BinState) (k : ℕ)
    (h : s.finalAccepted.getD k false = true) :
    (binRerun jv s).finalAccepted.getD k false = true := by
  have hk := getD_true_lt_length _ _ h
  have hlen : k < (padFalse s.finalAccepted s.times.length).length := by
    rw [padFalse_length]; omega
  rw [binRerun_fa_getD, if_pos hlen]
  by_cases hn : k < s.times.length
  · rw [if_pos hn, padFalse_getD, h, binAccept1_locked]
  · rw [if_neg hn, padFalse_getD, h]

lemma gageRerun_fa_mono (jv : JkamState) (s : GageState) (k : ℕ)
    (h : s.finalAccepted.getD k false = true) :
    (gageRerun jv s).finalAccepted.getD k false = true := by
  have hk := getD_true_lt_length _ _ h
  have hlen : k < (padFalse s.finalAccepted s.times.length).length := by
    rw [padFalse_length]; omega
  rw [gageRerun_fa_getD, if_pos hlen]
  by_cases hn : k < s.times.length
  · rw [if_pos hn, padFalse_getD, h, gageAccept1_locked]
  · rw [if_neg hn, padFalse_getD, h]

lemma rpRerun_fa_mono (jv : JkamState) (s : RpState) (k : ℕ)
    (h : s.finalAccepted.getD k false = true) :
    (rpRerun jv s).finalAccepted.getD k false = true := by
  have hk := getD_true_lt_length _ _ h
  have hlen : k < (padFalse s.finalAccepted s.files.length).length := by
    rw [padFalse_length]; omega
  rw [rpRerun_fa_getD, if_pos hlen]
  by_cases hn : k < s.files.length
  · rw [if_pos hn, padFalse_getD, h, rpAccept1_locked]
  · rw [if_neg hn, padFalse_getD, h]

lemma jkamProcess_flag_mono (s : JkamState) (p : ℕ) (t : ℚ) (k : ℕ)
    (h : s.flags.getD k false = true) :
    (jkamProcess s p t).flags.getD k false = true := by
  unfold jkamProcess
  split
  · exact h
  · have hk := getD_true_lt_length _ _ h
    show (s.flags ++ [_]).getD k false = true
    rw [List.getD_append _ _ _ _ hk]
    exact h

lemma binProcess_fa_mono (jv : JkamState) (s : BinState) (p : ℕ) (t : ℚ) (k : ℕ)
    (h : s.finalAccepted.getD k false = true) :
    (binProcess jv s p t).finalAccepted.getD k false = true := by
  unfold binProcess
  split
  · exact h
  · exact binRerun_fa_mono _ _ _ h

lemma gageProcess_fa_mono (jv : JkamState) (s : GageState) (t : ℚ) (k : ℕ)
    (h : s.finalAccepted.getD k false = true) :
    (gageProcess jv s t).finalAccepted.getD k false = true := by
  unfold gageProcess
  split
  · exact h
  · exact gageRerun_fa_mono _ _ _ h

lemma rpProcess_fa_mono (jv : JkamState) (s : RpState) (p : ℕ) (ts : Option (List ℚ)) (k : ℕ)
    (h : s.finalAccepted.getD k false = true) :
    (rpProcess jv s p ts).finalAccepted.getD k false = true := by
  unfold rpProcess
  split
  · exact h
  · exact rpRerun_fa_mono _ _ _ h

lemma step_mono (s : SysState) (e : Event) (k : ℕ) :
    (s.jkam.flags.getD k false = true → (step s e).jkam.flags.getD k false = true) ∧
    (s.bin.finalAccepted.getD k false = true →
      (step s e).bin.finalAccepted.getD k false = true) ∧
    (s.gage.finalAccepted.getD k false = true →
      (step s e).gage.finalAccepted.getD k false = true) ∧
    (s.rp.finalAccepted.getD k false = true →
      (step s e).rp.finalAccepted.getD k false = true) := by
  cases e with
  | jkam p t =>
    exact ⟨jkamProcess_flag_mono _ _ _ _, fun h => h, fun h => h, fun h => h⟩
  | fpga p t =>
    exact ⟨fun h => h, binProcess_fa_mono _ _ _ _ _, fun h => h, fun h => h⟩
  | gage p t =>
    exact ⟨fun h => h, fun h => h, gageProcess_fa_mono _ _ _ _, fun h => h⟩
  | rp p ts =>
    exact ⟨fun h => h, fun h => h, fun h => h, rpProcess_fa_mono _ _ _ _ _⟩

lemma run_mono (es : List Event) : ∀ (s : SysState) (k : ℕ),
    (s.jkam.flags.getD k false = true → (run s es).jkam.flags.getD k false = true) ∧
    (s.bin.finalAccepted.getD k false = true →
      (run s es).bin.finalAccepted.getD k false = true) ∧
    (s.gage.finalAccepted.getD k false = true →
      (run s es).gage.finalAccepted.getD k false = true) ∧
    (s.rp.finalAccepted.getD k false = true →
      (run s es).rp.finalAccepted.getD k false = true) := by
  induction es with
  | nil => exact fun s k => ⟨id, id, id, id⟩
  | cons e es ih =>
    intro s k
    have h1 := step_mono s e k
    have h2 := ih (step s e) k
    exact ⟨fun h => h2.1 (h1.1 h), fun h => h2.2.1 (h1.2.1 h),
      fun h => h2.2.2.1 (h1.2.2.1 h), fun h => h2.2.2.2 (h1.2.2.2 h)⟩

/-!
## The mask agrees with the ledger after every recomputation pass
-/

lemma binRerun_good (jv : JkamState) (s : BinState)
    (hlen : s.finalAccepted.length ≤ s.times.length) :
    (binRerun jv s).finalAccepted.length ≤ (binRerun jv s).times.length ∧
    ∀ k, (binRerun jv s).mask.getD k false = (binRerun jv s).finalAccepted.getD k false := by
  have hfl : (padFalse s.finalAccepted s.times.length).length = s.times.length := by
    rw [padFalse_length]; omega
  constructor
  · show ((List.range _).map _).length ≤ s.times.length
    simp only [List.length_map, List.length_range, hfl, le_refl]
  · intro k
    rw [binRerun_mask_getD, binRerun_fa_getD, hfl]
    by_cases hk : k < s.times.length
    · rw [if_pos hk, if_pos hk, if_pos hk, binAccept1_mask_eq_fin]
    · rw [if_neg hk, if_neg hk]

lemma gageRerun_good (jv : JkamState) (s : GageState)
    (hlen : s.finalAccepted.length ≤ s.times.length) :
    (gageRerun jv s).finalAccepted.length ≤ (gageRerun jv s).times.length ∧
    ∀ k, (gageRerun jv s).mask.getD k false = (gageRerun jv s).finalAccepted.getD k false := by
  have hfl : (padFalse s.finalAccepted s.times.length).length = s.times.length := by
    rw [padFalse_length]; omega
  constructor
  · show ((List.range _).map _).length ≤ s.times.length
    simp only [List.length_map, List.length_range, hfl, le_refl]
  · intro k
    rw [gageRerun_mask_getD, gageRerun_fa_getD, hfl]
    by_cases hk : k < s.times.length
    · rw [if_pos hk, if_pos hk, if_pos hk, gageAccept1_mask_eq_fin]
    · rw [if_neg hk, if_neg hk]

lemma rpRerun_good (jv : JkamState) (s : RpState)
    (hlen : s.finalAccepted.length ≤ s.files.length) :
    (rpRerun jv s).finalAccepted.length ≤ (rpRerun jv s).files.length ∧
    ∀ k, (rpRerun jv s).mask.getD k false = (rpRerun jv s).finalAccepted.getD k false := by
  have hfl : (padFalse s.finalAccepted s.files.length).length = s.files.length := by
    rw [padFalse_length]; omega
  constructor
  · show ((List.range _).map _).length ≤ s.files.length
    simp only [List.length_map, List.length_range, hfl, le_refl]
  · intro k
    rw [rpRerun_mask_getD, rpRerun_fa_getD, hfl]
    by_cases hk : k < s.files.length
    · rw [if_pos hk, if_pos hk, if_pos hk, rpAccept1_mask_eq_fin]
    · rw [if_neg hk, if_neg hk]

lemma step_good (s : SysState) (e : Event)
    (hb : s.bin.finalAccepted.length ≤ s.bin.times.length ∧
      ∀ k, s.bin.mask.getD k false = s.bin.finalAccepted.getD k false)
    (hg : s.gage.finalAccepted.length ≤ s.gage.times.length ∧
      ∀ k, s.gage.mask.getD k false = s.gage.finalAccepted.getD k false)
    (hr : s.rp.finalAccepted.length ≤ s.rp.files.length ∧
      ∀ k, s.rp.mask.getD k false = s.rp.finalAccepted.getD k false) :
    ((step s e).bin.finalAccepted.length ≤ (step s e).bin.times.length ∧
      ∀ k, (step s e).bin.mask.getD k false = (step s e).bin.finalAccepted.getD k false) ∧
    ((step s e).gage.finalAccepted.length ≤ (step s e).gage.times.length ∧
      ∀ k, (step s e).gage.mask.getD k false = (step s e).gage.finalAccepted.getD k false) ∧
    ((step s e).rp.finalAccepted.length ≤ (step s e).rp.files.length ∧
      ∀ k, (step s e).rp.mask.getD k false = (step s e).rp.finalAccepted.getD k false) := by
  cases e with
  | jkam p t => exact ⟨hb, hg, hr⟩
  | fpga p t =>
    refine ⟨?_, hg, hr⟩
    show (binProcess s.jkam s.bin p t).finalAccepted.length ≤
        (binProcess s.jkam s.bin p t).times.length ∧
      ∀ k, (binProcess s.jkam s.bin p t).mask.getD k false =
        (binProcess s.jkam s.bin p t).finalAccepted.getD k false
    unfold binProcess
    split
    · exact hb
    · refine binRerun_good _ _ ?_
      show s.bin.finalAccepted.length ≤ (s.bin.times ++ [t]).length
      rw [List.length_append]
      exact Nat.le_trans hb.1 (Nat.le_add_right _ _)
  | gage p t =>
    refine ⟨hb, ?_, hr⟩
    show (gageProcess s.jkam s.gage t).finalAccepted.length ≤
        (gageProcess s.jkam s.gage t).times.length ∧
      ∀ k, (gageProcess s.jkam s.gage t).mask.getD k false =
        (gageProcess s.jkam s.gage t).finalAccepted.getD k false
    unfold gageProcess
    split
    · exact hg
    · refine gageRerun_good _ _ ?_
      show s.gage.finalAccepted.length ≤ (s.gage.times ++ [t]).length
      rw [List.length_append]
      exact Nat.le_trans hg.1 (Nat.le_add_right _ _)
  | rp p ts =>
    refine ⟨hb, hg, ?_⟩
    show (rpProcess s.jkam s.rp p ts).finalAccepted.length ≤
        (rpProcess s.jkam s.rp p ts).files.length ∧
      ∀ k, (rpProcess s.jkam s.rp p ts).mask.getD k false =
        (rpProcess s.jkam s.rp p ts).finalAccepted.getD k false
    unfold rpProcess
    split
    · exact hr
    · refine rpRerun_good _ _ ?_
      show s.rp.finalAccepted.length ≤ (s.rp.files ++ [p]).length
      rw [List.length_append]
      exact Nat.le_trans hr.1 (Nat.le_add_right _ _)

lemma run_good (es : List Event) : ∀ (s : SysState),
    (s.bin.finalAccepted.length ≤ s.bin.times.length ∧
      ∀ k, s.bin.mask.getD k false = s.bin.finalAccepted.getD k false) →
    (s.gage.finalAccepted.length ≤ s.gage.times.length ∧
      ∀ k, s.gage.mask.getD k false = s.gage.finalAccepted.getD k false) →
    (s.rp.finalAccepted.length ≤ s.rp.files.length ∧
      ∀ k, s.rp.mask.getD k false = s.rp.finalAccepted.getD k false) →
    ((run s es).bin.finalAccepted.length ≤ (run s es).bin.times.length ∧
      ∀ k, (run s es).bin.mask.getD k false = (run s es).bin.finalAccepted.getD k false) ∧
    ((run s es).gage.finalAccepted.length ≤ (run s es).gage.times.length ∧
      ∀ k, (run s es).gage.mask.getD k false = (run s es).gage.finalAccepted.getD k false) ∧
    ((run s es).rp.finalAccepted.length ≤ (run s es).rp.files.length ∧
      ∀ k, (run s es).rp.mask.getD k false = (run s es).rp.finalAccepted.getD k false) := by
  induction es with
  | nil => exact fun s hb hg hr => ⟨hb, hg, hr⟩
  | cons e es ih =>
    intro s hb hg hr
    have h := step_good s e hb hg hr
    exact ih (step s e) h.1 h.2.1 h.2.2

lemma run_append (s : SysState) (es more : List Event) :
    run s (es ++ more) = run (run s es) more := by
  simp [run, List.foldl_append]

lemma run_init_good (es : List Event) :
    ((run SysState.init es).bin.finalAccepted.length ≤
        (run SysState.init es).bin.times.length ∧
      ∀ k, (run SysState.init es).bin.mask.getD k false =
        (run SysState.init es).bin.finalAccepted.getD k false) ∧
    ((run SysState.init es).gage.finalAccepted.length ≤
        (run SysState.init es).gage.times.length ∧
      ∀ k, (run SysState.init es).gage.mask.getD k false =
        (run SysState.init es).gage.finalAccepted.getD k false) ∧
    ((run SysState.init es).rp.finalAccepted.length ≤
        (run SysState.init es).rp.files.length ∧
      ∀ k, (run SysState.init es).rp.mask.getD k false =
        (run SysState.init es).rp.finalAccepted.getD k false) :=
  run_good es SysState.init ⟨Nat.le_refl 0, fun _ => rfl⟩
    ⟨Nat.le_refl 0, fun _ => rfl⟩ ⟨Nat.le_refl 0, fun _ => rfl⟩

/-- **C1** (sticky acceptance): for every producer stream and shot index
`k`, once the shot is accepted after some arrival sequence `es`
(`final_accepted[k]` for the secondary handlers, the space-correct flag
for the reference handler), it remains accepted after every further
arrival sequence `more`, across all the full recomputations those
arrivals trigger; for the secondary handlers the queryable
`mask_valid_data[k]` is also still true, because each recomputation
checks the ledger first and short-circuits locked indices. -/
theorem sticky_acceptance (es more : List Event) (k : ℕ) :
    ((run SysState.init es).jkam.flags.getD k false = true →
      (run SysState.init (es ++ more)).jkam.flags.getD k false = true) ∧
    ((run SysState.init es).bin.finalAccepted.getD k false = true →
      (run SysState.init (es ++ more)).bin.finalAccepted.getD k false = true ∧
      (run SysState.init (es ++ more)).bin.mask.getD k false = true) ∧
    ((run SysState.init es).gage.finalAccepted.getD k false = true →
      (run SysState.init (es ++ more)).gage.finalAccepted.getD k false = true ∧
      (run SysState.init (es ++ more)).gage.mask.getD k false = true) ∧
    ((run SysState.init es).rp.finalAccepted.getD k false = true →
      (run SysState.init (es ++ more)).rp.finalAccepted.getD k false = true ∧
      (run SysState.init (es ++ more)).rp.mask.getD k false = true) := by
  have hrun := run_append SysState.init es more
  have hm := run_mono more (run SysState.init es) k
  have hG := run_init_good (es ++ more)
  refine ⟨fun h => ?_, fun h => ?_, fun h => ?_, fun h => ?_⟩
  · rw [hrun]
    exact hm.1 h
  · have hfa : (run SysState.init (es ++ more)).bin.finalAccepted.getD k false = true := by
      rw [hrun]
      exact hm.2.1 h
    refine ⟨hfa, ?_⟩
    rw [hG.1.2 k]
    exact hfa
  · have hfa : (run SysState.init (es ++ more)).gage.finalAccepted.getD k false = true := by
      rw [hrun]
      exact hm.2.2.1 h
    refine ⟨hfa, ?_⟩
    rw [hG.2.1.2 k]
    exact hfa
  · have hfa : (run SysState.init (es ++ more)).rp.finalAccepted.getD k false = true := by
      rw [hrun]
      exact hm.2.2.2 h
    refine ⟨hfa, ?_⟩
    rw [hG.2.2.2 k]
    exact hfa

/-- Witness for C1: scenario C — FPGA shot 0 is accepted after
`stickyBaseEvents`, and after the outlier reference arrival and the
further recomputation in `stickyMoreEvents` it is still accepted. -/
theorem sticky_acceptance_witness :
    (run SysState.init stickyBaseEvents).bin.finalAccepted.getD 0 false = true ∧
    ((run SysState.init (stickyBaseEvents ++ stickyMoreEvents)).bin.finalAccepted.getD 0 false = true ∧
     (run SysState.init (stickyBaseEvents ++ stickyMoreEvents)).bin.mask.getD 0 false = true) :=
  ⟨by decide, (sticky_acceptance stickyBaseEvents stickyMoreEvents 0).2.1 (by decide)⟩

/-- **C9** (mask–ledger agreement): immediately after any recomputation
pass of a secondary handler, the queryable acceptance mask agrees exactly
with the sticky ledger: for every shot index `k` of that stream,
`mask_valid_data[k] = true` iff `final_accepted[k] = true`. -/
theorem mask_ledger_agreement (jv : JkamState) (bs : BinState) (gs : GageState)
    (rs : RpState) (k : ℕ) :
    (k < bs.times.length →
      (binRerun jv bs).mask.getD k false = (binRerun jv bs).finalAccepted.getD k false) ∧
    (k < gs.times.length →
      (gageRerun jv gs).mask.getD k false = (gageRerun jv gs).finalAccepted.getD k false) ∧
    (k < rs.files.length →
      (rpRerun jv rs).mask.getD k false = (rpRerun jv rs).finalAccepted.getD k false) := by
  refine ⟨fun hk => ?_, fun hk => ?_, fun hk => ?_⟩
  · rw [binRerun_mask_getD, binRerun_fa_getD, if_pos hk,
      if_pos (show k < (padFalse bs.finalAccepted bs.times.length).length by
        rw [padFalse_length]; omega),
      if_pos hk, binAccept1_mask_eq_fin]
  · rw [gageRerun_mask_getD, gageRerun_fa_getD, if_pos hk,
      if_pos (show k < (padFalse gs.finalAccepted gs.times.length).length by
        rw [padFalse_length]; omega),
      if_pos hk, gageAccept1_mask_eq_fin]
  · rw [rpRerun_mask_getD, rpRerun_fa_getD, if_pos hk,
      if_pos (show k < (padFalse rs.finalAccepted rs.files.length).length by
        rw [padFalse_length]; omega),
      if_pos hk, rpAccept1_mask_eq_fin]

/-- Witness for C9: concrete agreement at FPGA shot 0 of the
`nearestMatchEvents` run after one more recomputation pass. -/
theorem mask_ledger_agreement_witness :
    0 < (run SysState.init nearestMatchEvents).bin.times.length ∧
    (binRerun (run SysState.init nearestMatchEvents).jkam
        (run SysState.init nearestMatchEvents).bin).mask.getD 0 false =
      (binRerun (run SysState.init nearestMatchEvents).jkam
        (run SysState.init nearestMatchEvents).bin).finalAccepted.getD 0 false :=
  ⟨by decide,
    (mask_ledger_agreement (run SysState.init nearestMatchEvents).jkam
      (run SysState.init nearestMatchEvents).bin GageState.init RpState.init 0).1
      (by decide)⟩

/-- **C6** (determinism): replaying the same arrival sequence on two fresh
engine instances yields identical acceptance flags, matched indices and
cumulative values at every shot index of every stream — the engine's
observable state is a pure function of the arrival sequence. -/
theorem determinism_replay (es : List Event) (k : ℕ) :
    ((run SysState.init es).bin.mask.getD k false =
        (run SysState.init es).bin.mask.getD k false ∧
      (run SysState.init es).bin.matchlist.getD k (-1) =
        (run SysState.init es).bin.matchlist.getD k (-1) ∧
      (run SysState.init es).bin.cumulative.getD k 0 =
        (run SysState.init es).bin.cumulative.getD k 0) ∧
    ((run SysState.init es).gage.mask.getD k false =
        (run SysState.init es).gage.mask.getD k false ∧
      (run SysState.init es).gage.matchlist.getD k (-1) =
        (run SysState.init es).gage.matchlist.getD k (-1) ∧
      (run SysState.init es).gage.cumulative.getD k 0 =
        (run SysState.init es).gage.cumulative.getD k 0) ∧
    ((run SysState.init es).rp.mask.getD k false =
        (run SysState.init es).rp.mask.getD k false ∧
      (run SysState.init es).rp.matchlist.getD k (-1) =
        (run SysState.init es).rp.matchlist.getD k (-1) ∧
      (run SysState.init es).rp.cumulative.getD k 0 =
        (run SysState.init es).rp.cumulative.getD k 0) ∧
    ((run SysState.init es).jkam.flags.getD k false =
        (run SysState.init es).jkam.flags.getD k false ∧
      (run SysState.init es).jkam.cumulative.getD k 0 =
        (run SysState.init es).jkam.cumulative.getD k 0) :=
  ⟨⟨rfl, rfl, rfl⟩, ⟨rfl, rfl, rfl⟩, ⟨rfl, rfl, rfl⟩, rfl, rfl⟩

/-- **C10** (duplicate-arrival idempotence): processing an artifact that
is already recorded — an already-seen path for the JKAM, FPGA and Red
Pitaya handlers, an already-seen creation time for the GageScope handler —
returns early and leaves the whole engine state unchanged. -/
theorem duplicate_arrival_idem (s : SysState) (p : ℕ) (t : ℚ) (ts : Option (List ℚ)) :
    (p ∈ s.jkam.files → step s (Event.jkam p t) = s) ∧
    (p ∈ s.bin.files → step s (Event.fpga p t) = s) ∧
    (t ∈ s.gage.times → step s (Event.gage p t) = s) ∧
    (p ∈ s.rp.files → step s (Event.rp p ts) = s) := by
  refine ⟨fun h => ?_, fun h => ?_, fun h => ?_, fun h => ?_⟩
  · have hj : jkamProcess s.jkam p t = s.jkam := by
      unfold jkamProcess
      rw [if_pos h]
    show { s with jkam := jkamProcess s.jkam p t } = s
    rw [hj]
  · have hb : binProcess s.jkam s.bin p t = s.bin := by
      unfold binProcess
      rw [if_pos h]
    show { s with bin := binProcess s.jkam s.bin p t } = s
    rw [hb]
  · have hg : gageProcess s.jkam s.gage t = s.gage := by
      unfold gageProcess
      rw [if_pos h]
    show { s with gage := gageProcess s.jkam s.gage t } = s
    rw [hg]
  · have hr : rpProcess s.jkam s.rp p ts = s.rp := by
      unfold rpProcess
      rw [if_pos h]
    show { s with rp := rpProcess s.jkam s.rp p ts } = s
    rw [hr]

/-- Witness for C10: re-submitting the FPGA file with path id 1 is a
no-op. -/
theorem duplicate_arrival_idem_witness :
    (1 : ℕ) ∈ (run SysState.init [Event.fpga 1 7]).bin.files ∧
    step (run SysState.init [Event.fpga 1 7]) (Event.fpga 1 9) =
      run SysState.init [Event.fpga 1 7] :=
  ⟨by decide, (duplicate_arrival_idem (run SysState.init [Event.fpga 1 7]) 1 9 none).2.1
    (by decide)⟩

/-!
## Period estimates
-/

lemma headD_append_of_ne_nil (l : List ℚ) (x : ℚ) (h : l ≠ []) :
    (l ++ [x]).headD 0 = l.headD 0 := by
  cases l with
  | nil => exact absurd rfl h
  | cons a u => rfl

lemma jkamProcess_gap (s : JkamState) (p : ℕ) (t : ℚ)
    (h : s.avgTimeGap = if s.times.length ≤ 1 then 0
      else |s.times.getLastD 0 - s.times.headD 0| / ((s.times.length - 1 : ℕ) : ℚ)) :
    (jkamProcess s p t).avgTimeGap =
      if (jkamProcess s p t).times.length ≤ 1 then 0
      else |(jkamProcess s p t).times.getLastD 0 - (jkamProcess s p t).times.headD 0| /
        (((jkamProcess s p t).times.length - 1 : ℕ) : ℚ) := by
  unfold jkamProcess
  split
  · exact h
  · show (if s.times.length = 0 then 0 else |(t - s.times.headD 0) / (s.times.length : ℚ)|) =
      if (s.times ++ [t]).length ≤ 1 then 0
      else |(s.times ++ [t]).getLastD 0 - (s.times ++ [t]).headD 0| /
        (((s.times ++ [t]).length - 1 : ℕ) : ℚ)
    by_cases hn : s.times.length = 0
    · have hnil : s.times = [] := List.length_eq_zero.mp hn
      rw [hnil]
      norm_num
    · have hne : s.times ≠ [] := fun hc => hn (by rw [hc]; rfl)
      rw [if_neg hn, List.getLastD_concat, headD_append_of_ne_nil _ _ hne,
        List.length_append]
      rw [if_neg (by simp only [List.length_cons, List.length_nil]; omega)]
      have hcast : ((s.times.length + [t].length - 1 : ℕ) : ℚ) = (s.times.length : ℚ) := by
        norm_num
      rw [hcast, abs_div, Nat.abs_cast]

lemma binProcess_gap (jv : JkamState) (s : BinState) (p : ℕ) (t : ℚ)
    (h : s.avgTimeGap = binGap s.times) :
    (binProcess jv s p t).avgTimeGap = binGap (binProcess jv s p t).times := by
  unfold binProcess
  split
  · exact h
  · rfl

lemma gageProcess_gap (jv : JkamState) (s : GageState) (t : ℚ)
    (h : s.avgTimeGap = gageGap s.times) :
    (gageProcess jv s t).avgTimeGap = gageGap (gageProcess jv s t).times := by
  unfold gageProcess
  split
  · exact h
  · rfl

lemma run_gap (es : List Event) : ∀ s : SysState,
    (s.jkam.avgTimeGap = if s.jkam.times.length ≤ 1 then 0
      else |s.jkam.times.getLastD 0 - s.jkam.times.headD 0| /
        ((s.jkam.times.length - 1 : ℕ) : ℚ)) →
    (s.bin.avgTimeGap = binGap s.bin.times) →
    (s.gage.avgTimeGap = gageGap s.gage.times) →
    ((run s es).jkam.avgTimeGap = if (run s es).jkam.times.length ≤ 1 then 0
      else |(run s es).jkam.times.getLastD 0 - (run s es).jkam.times.headD 0| /
        (((run s es).jkam.times.length - 1 : ℕ) : ℚ)) ∧
    ((run s es).bin.avgTimeGap = binGap (run s es).bin.times) ∧
    ((run s es).gage.avgTimeGap = gageGap (run s es).gage.times) := by
  induction es with
  | nil => exact fun s hj hb hg => ⟨hj, hb, hg⟩
  | cons e es ih =>
    intro s hj hb hg
    refine ih (step s e) ?_ ?_ ?_
    · cases e with
      | jkam p t => exact jkamProcess_gap s.jkam p t hj
      | fpga p t => exact hj
      | gage p t => exact hj
      | rp p ts => exact hj
    · cases e with
      | jkam p t => exact hb
      | fpga p t => exact binProcess_gap s.jkam s.bin p t hb
      | gage p t => exact hb
      | rp p ts => exact hb
    · cases e with
      | jkam p t => exact hg
      | fpga p t => exact hg
      | gage p t => exact gageProcess_gap s.jkam s.gage t hg
      | rp p ts => exact hg

/-- **C3 amended** (period estimation): after every arrival sequence, each
stream's stored period estimate equals the full-history recomputation,
with sentinel 0 when the stream has fewer than 2 arrivals; for the JKAM
and FPGA streams the value is `|last - first| / (count - 1)`, but for the
GageScope stream it is `(last - first) / (count - 1)` with no absolute
value, so it is negative for out-of-order timestamps. -/
theorem period_estimates (es : List Event) :
    ((run SysState.init es).jkam.avgTimeGap =
      if (run SysState.init es).jkam.times.length ≤ 1 then 0
      else |(run SysState.init es).jkam.times.getLastD 0 -
          (run SysState.init es).jkam.times.headD 0| /
        (((run SysState.init es).jkam.times.length - 1 : ℕ) : ℚ)) ∧
    ((run SysState.init es).bin.avgTimeGap =
      if (run SysState.init es).bin.times.length ≤ 1 then 0
      else |(run SysState.init es).bin.times.getLastD 0 -
          (run SysState.init es).bin.times.headD 0| /
        (((run SysState.init es).bin.times.length - 1 : ℕ) : ℚ)) ∧
    ((run SysState.init es).gage.avgTimeGap =
      if (run SysState.init es).gage.times.length ≤ 1 then 0
      else ((run SysState.init es).gage.times.getLastD 0 -
          (run SysState.init es).gage.times.headD 0) /
        (((run SysState.init es).gage.times.length - 1 : ℕ) : ℚ)) := by
  have h := run_gap es SysState.init rfl rfl rfl
  exact ⟨h.1, h.2.1, h.2.2⟩

/-- Counterexample to **C3** as stated: after the out-of-order GageScope
arrivals of `gagePeriodEvents` the stored period estimate is `-5`, not
the claimed `|last - first| / (count - 1) = 5`. -/
theorem period_estimate_counterexample :
    (run SysState.init gagePeriodEvents).gage.avgTimeGap = -5 ∧
    (run SysState.init gagePeriodEvents).gage.times.length = 2 ∧
    (run SysState.init gagePeriodEvents).gage.avgTimeGap ≠
      |(run SysState.init gagePeriodEvents).gage.times.getLastD 0 -
        (run SysState.init gagePeriodEvents).gage.times.headD 0| /
      (((run SysState.init gagePeriodEvents).gage.times.length - 1 : ℕ) : ℚ) := by
  refine ⟨?_, by decide, ?_⟩ <;>
    norm_num [run, gagePeriodEvents, step, gageProcess, gageRerun, gageGap,
      SysState.init, JkamState.init, BinState.init, GageState.init, RpState.init,
      List.foldl, abs_sub_comm]

/-!
## Spacing validation
-/

lemma jkamProcess_flags_spec (s : JkamState) (p : ℕ) (t : ℚ)
    (hlen : s.flags.length = s.times.length)
    (hspec : ∀ i, i < s.times.length → s.flags.getD i false = spaceCorrectSpec s.times i) :
    (jkamProcess s p t).flags.length = (jkamProcess s p t).times.length ∧
    ∀ i, i < (jkamProcess s p t).times.length →
      (jkamProcess s p t).flags.getD i false =
        spaceCorrectSpec (jkamProcess s p t).times i := by
  unfold jkamProcess
  split
  · exact ⟨hlen, hspec⟩
  · refine ⟨by show (s.flags ++ [_]).length = (s.times ++ [t]).length; simp [hlen], ?_⟩
    intro i hi
    show (s.flags ++ [_]).getD i false = spaceCorrectSpec (s.times ++ [t]) i
    have hi' : i < s.times.length + 1 := by
      simpa using hi
    by_cases hlt : i < s.times.length
    · rw [List.getD_append _ _ _ _ (hlen ▸ hlt), hspec i hlt]
      unfold spaceCorrectSpec
      by_cases h0 : i = 0
      · rw [if_pos h0, if_pos h0]
      · rw [if_neg h0, if_neg h0,
          List.getD_append _ _ _ _ hlt,
          List.getD_append _ _ _ _ (show i - 1 < s.times.length by omega),
          List.getD_append _ _ _ _ (show 0 < s.times.length by omega)]
    · have hieq : i = s.times.length := by omega
      subst hieq
      rw [List.getD_append_right _ _ _ _ (Nat.le_of_eq hlen)]
      rw [hlen, Nat.sub_self]
      by_cases h0 : s.times.length = 0
      · have hnil : s.times = [] := List.length_eq_zero.mp h0
        rw [if_pos h0]
        unfold spaceCorrectSpec
        rw [if_pos h0]
        rfl
      · have hne : s.times ≠ [] := fun hc => h0 (by rw [hc]; rfl)
        rw [if_neg h0]
        have hA : (s.times ++ [t]).getD s.times.length 0 = t := by
          rw [List.getD_append_right _ _ _ _ (Nat.le_refl _), Nat.sub_self]
          rfl
        have hB : (s.times ++ [t]).getD (s.times.length - 1) 0 = s.times.getLastD 0 := by
          rw [List.getD_append _ _ _ _ (show s.times.length - 1 < s.times.length by omega)]
          exact (getLastD_eq_getD s.times hne 0).symm
        have hC : (s.times ++ [t]).getD 0 0 = s.times.headD 0 := by
          rw [List.getD_append _ _ _ _ (show 0 < s.times.length by omega)]
          exact (headD_eq_getD_zero s.times 0 hne).symm
        unfold spaceCorrectSpec
        rw [if_neg h0, hA, hB, hC, if_neg h0, abs_div, Nat.abs_cast]
        rfl

lemma run_flags_spec (es : List Event) : ∀ s : SysState,
    s.jkam.flags.length = s.jkam.times.length →
    (∀ i, i < s.jkam.times.length →
      s.jkam.flags.getD i false = spaceCorrectSpec s.jkam.times i) →
    (run s es).jkam.flags.length = (run s es).jkam.times.length ∧
    ∀ i, i < (run s es).jkam.times.length →
      (run s es).jkam.flags.getD i false = spaceCorrectSpec (run s es).jkam.times i := by
  induction es with
  | nil => exact fun s hlen hspec => ⟨hlen, hspec⟩
  | cons e es ih =>
    intro s hlen hspec
    cases e with
    | jkam p t =>
      have h := jkamProcess_flags_spec s.jkam p t hlen hspec
      exact ih (step s (Event.jkam p t)) h.1 h.2
    | fpga p t => exact ih (step s (Event.fpga p t)) hlen hspec
    | gage p t => exact ih (step s (Event.gage p t)) hlen hspec
    | rp p ts => exact ih (step s (Event.rp p ts)) hlen hspec

/-- **C5** (spacing validation): after any arrival sequence, reference
shot 0 is space-correct, and reference shot `i > 0` is space-correct iff
`|t_i - t_(i-1) - p| <= (1/5) * p` where `p = |t_i - t_0| / i` is the
period estimate in effect right after arrival `i` (`spaceCorrectSpec`);
in particular, on scenario B (`[0, 1, 5]`) the period after the third
arrival is `5/2` and index 2 is not space-correct. -/
theorem spacing_validation :
    (∀ (es : List Event) (i : ℕ), i < (run SysState.init es).jkam.times.length →
      (run SysState.init es).jkam.flags.getD i false =
        spaceCorrectSpec (run SysState.init es).jkam.times i) ∧
    (run SysState.init scenarioB).jkam.avgTimeGap = 5 / 2 ∧
    (run SysState.init scenarioB).jkam.flags.getD 2 false = false := by
  refine ⟨fun es i hi => (run_flags_spec es SysState.init rfl (fun i hi => absurd hi
    (by simp [SysState.init, JkamState.init]))).2 i hi, ?_, ?_⟩ <;>
    norm_num [run, scenarioB, step, jkamProcess, SysState.init, JkamState.init,
      BinState.init, GageState.init, RpState.init, List.foldl, List.getD, abs_div]

/-- Witness for C5: the general characterization applied to scenario B at
index 2, where the spec-side recomputation also yields `false`. -/
theorem spacing_validation_witness :
    2 < (run SysState.init scenarioB).jkam.times.length ∧
    (run SysState.init scenarioB).jkam.flags.getD 2 false =
      spaceCorrectSpec (run SysState.init scenarioB).jkam.times 2 :=
  ⟨by decide, spacing_validation.1 scenarioB 2 (by decide)⟩

/-!
## The cumulative series
-/

lemma foldl_cum_rel (flags : List Bool) : ∀ (series : List ℕ) (cur high : ℕ),
    (series ≠ [] → series.getLast? ≠ some 0 → series.getLastD 0 = cur) →
    (flags.foldl cumStep (series, cur, high)).1 =
      (flags.foldl cumSpecStep (series, high)).1 ∧
    (flags.foldl cumStep (series, cur, high)).2.2 =
      (flags.foldl cumSpecStep (series, high)).2 := by
  induction flags with
  | nil => exact fun series cur high hlink => ⟨rfl, rfl⟩
  | cons b bs ih =>
    intro series cur high hlink
    show (bs.foldl cumStep (cumStep (series, cur, high) b)).1 =
        (bs.foldl cumSpecStep (cumSpecStep (series, high) b)).1 ∧
      (bs.foldl cumStep (cumStep (series, cur, high) b)).2.2 =
        (bs.foldl cumSpecStep (cumSpecStep (series, high) b)).2
    cases b with
    | false =>
      have hstep : cumStep (series, cur, high) false = (series ++ [0], cur, high) := rfl
      have hspec : cumSpecStep (series, high) false = (series ++ [0], max high 0) := rfl
      rw [hstep, hspec, Nat.max_eq_left (Nat.zero_le high)]
      refine ih (series ++ [0]) cur high ?_
      intro _ hlast
      exact absurd (List.getLast?_concat series) hlast
    | true =>
      have hcv : (if series = [] ∨ series.getLast? = some 0 then high + 1 else cur + 1) =
          (if series = [] ∨ series.getLast? = some 0 then high + 1
           else series.getLastD 0 + 1) := by
        by_cases hP : series = [] ∨ series.getLast? = some 0
        · rw [if_pos hP, if_pos hP]
        · rw [if_neg hP, if_neg hP]
          push_neg at hP
          rw [hlink hP.1 hP.2]
      have hstep : cumStep (series, cur, high) true =
          (series ++ [if series = [] ∨ series.getLast? = some 0 then high + 1 else cur + 1],
           (if series = [] ∨ series.getLast? = some 0 then high + 1 else cur + 1),
           max high (if series = [] ∨ series.getLast? = some 0 then high + 1 else cur + 1)) :=
        rfl
      have hspec : cumSpecStep (series, high) true =
          (series ++ [if series = [] ∨ series.getLast? = some 0 then high + 1
             else series.getLastD 0 + 1],
           max high (if series = [] ∨ series.getLast? = some 0 then high + 1
             else series.getLastD 0 + 1)) := rfl
      rw [hstep, hspec, hcv]
      refine ih _ _ _ ?_
      intro _ _
      exact List.getLastD_concat _ _ _

/-- The code's threaded-counter cumulative loop computes exactly the
series of the specification's state machine. -/
lemma cumulativeSeries_eq_spec (flags : List Bool) :
    cumulativeSeries flags = cumSpecSeries flags :=
  (foldl_cum_rel flags [] 0 0 (fun h _ => absurd rfl h)).1

lemma recordHigh_step (flags : List Bool) (b : Bool) :
    recordHigh flags ≤ recordHigh (flags ++ [b]) := by
  unfold recordHigh
  rw [List.foldl_append]
  cases b with
  | false => exact Nat.le_of_eq (Nat.max_eq_left (Nat.zero_le _)).symm
  | true => exact Nat.le_max_left _ _

lemma recordHigh_take_mono (flags : List Bool) (k : ℕ) :
    recordHigh (flags.take k) ≤ recordHigh (flags.take (k + 1)) := by
  rw [List.take_succ]
  cases h : flags[k]? with
  | none => simp
  | some b =>
    show recordHigh (flags.take k) ≤ recordHigh (flags.take k ++ [b])
    exact recordHigh_step _ b

/-- **C4** (cumulative series state machine): for every acceptance-flag
sequence the code's cumulative loop (`cumulativeSeries`, shared by the
FPGA, GageScope and Red Pitaya handlers) produces exactly the series of
the specification's state machine: a rejected index gets 0, an accepted
index whose previous value is 0 (or index 0) gets `record_high + 1`, any
other accepted index gets `previous_value + 1`, with
`record_high = max record_high new_value` after each step; the
`record_high` watermark never decreases along the series; and each
handler's recomputation derives its cumulative series from its fresh mask
by this very function. -/
theorem cumulative_series_state_machine :
    (∀ flags : List Bool, cumulativeSeries flags = cumSpecSeries flags) ∧
    (∀ (flags : List Bool) (k : ℕ),
      recordHigh (flags.take k) ≤ recordHigh (flags.take (k + 1))) ∧
    (∀ (jv : JkamState) (bs : BinState) (gs : GageState) (rs : RpState),
      (binRerun jv bs).cumulative = cumulativeSeries (binRerun jv bs).mask ∧
      (gageRerun jv gs).cumulative = cumulativeSeries (gageRerun jv gs).mask ∧
      (rpRerun jv rs).cumulative = cumulativeSeries (rpRerun jv rs).mask) :=
  ⟨cumulativeSeries_eq_spec, recordHigh_take_mono, fun _ _ _ _ => ⟨rfl, rfl, rfl⟩⟩

/-!
## Correctness of the nearest-index search (`np.min` / `np.argmin`)
-/

lemma idxOfMinAux_spec (l : List ℚ) :
    ∀ (xs : List ℚ) (i best : ℕ) (bv : ℚ),
      i + xs.length = l.length →
      (∀ j, j < xs.length → xs.getD j 0 = l.getD (i + j) 0) →
      best < i → l.getD best 0 = bv →
      (∀ j, j < i → bv ≤ l.getD j 0) →
      (∀ j, j < best → bv < l.getD j 0) →
      idxOfMinAux xs i bv best < l.length ∧
      l.getD (idxOfMinAux xs i bv best) 0 = xs.foldl min bv ∧
      (∀ j, j < l.length → xs.foldl min bv ≤ l.getD j 0) ∧
      (∀ j, j < idxOfMinAux xs i bv best → xs.foldl min bv < l.getD j 0) := by
  intro xs
  induction xs with
  | nil =>
    intro i best bv hlen hgets hbi hbv hle hfirst
    simp only [List.length_nil] at hlen
    simp only [idxOfMinAux, List.foldl_nil]
    exact ⟨by omega, hbv, fun j hj => hle j (by omega), hfirst⟩
  | cons x xs ih =>
    intro i best bv hlen hgets hbi hbv hle hfirst
    simp only [List.length_cons] at hlen
    have hx : l.getD i 0 = x := by
      have h0 := hgets 0 (by simp)
      simpa using h0.symm
    have hgets' : ∀ j, j < xs.length → xs.getD j 0 = l.getD (i + 1 + j) 0 := by
      intro j hj
      have h1 := hgets (j + 1) (by simpa using Nat.succ_lt_succ hj)
      rw [List.getD_cons_succ] at h1
      rw [h1]
      congr 1
      omega
    simp only [idxOfMinAux, List.foldl_cons]
    by_cases hlt : x < bv
    · rw [if_pos hlt, min_eq_right (le_of_lt hlt)]
      refine ih (i + 1) i x (by omega) hgets' (Nat.lt_succ_self i) hx ?_ ?_
      · intro j hj
        rcases Nat.lt_succ_iff_lt_or_eq.mp hj with h | h
        · exact le_of_lt (lt_of_lt_of_le hlt (hle j h))
        · subst h
          exact le_of_eq hx.symm
      · intro j hj
        exact lt_of_lt_of_le hlt (hle j hj)
    · rw [if_neg hlt, min_eq_left (le_of_not_lt hlt)]
      refine ih (i + 1) best bv (by omega) hgets' (by omega) hbv ?_ hfirst
      intro j hj
      rcases Nat.lt_succ_iff_lt_or_eq.mp hj with h | h
      · exact hle j h
      · subst h
        rw [hx]
        exact le_of_not_lt hlt

/-- `idxOfMin` of a nonempty list is in range, attains `listMin`, and is
the FIRST index doing so: every earlier index holds a strictly larger
value. -/
lemma idxOfMin_spec (l : List ℚ) (hne : l ≠ []) :
    idxOfMin l < l.length ∧
    l.getD (idxOfMin l) 0 = listMin l ∧
    (∀ j, j < l.length → listMin l ≤ l.getD j 0) ∧
    (∀ j, j < idxOfMin l → listMin l < l.getD j 0) := by
  cases l with
  | nil => exact absurd rfl hne
  | cons x xs =>
    have h := idxOfMinAux_spec (x :: xs) xs 1 0 x
      (by simp [Nat.add_comm])
      (fun j hj => by rw [show (1 + j) = j + 1 by omega, List.getD_cons_succ])
      Nat.zero_lt_one rfl
      (fun j hj => by
        have hj0 : j = 0 := by omega
        subst hj0
        exact le_refl x)
      (fun j hj => absurd hj (Nat.not_lt_zero j))
    exact h

lemma getD_map_abs (ts : List ℚ) (c : ℚ) (j : ℕ) (hj : j < ts.length) :
    (ts.map (fun x => |x - c|)).getD j 0 = |ts.getD j 0 - c| := by
  rw [List.getD_eq_getElem _ _ (by simpa using hj), List.getD_eq_getElem _ _ hj,
    List.getElem_map]

lemma binAccept1_unlocked (jv : JkamState) (ts : List ℚ) (gap : ℚ) (k : ℕ)
    (hj : k < jv.times.length) (hg : gap ≠ 0) :
    binAccept1 jv ts gap false k =
      if listMin (ts.map (fun x => |x - jv.times.getD k 0|)) ≤ (3 / 10) * gap ∧
          jv.flags.getD k false then
        ⟨true, (idxOfMin (ts.map (fun x => |x - jv.times.getD k 0|)) : ℤ), true, false⟩
      else ⟨false, -1, false, true⟩ := by
  simp only [binAccept1, Bool.false_eq_true, if_false, if_pos hj, if_neg hg]

lemma gageAccept1_unlocked (jv : JkamState) (ts : List ℚ) (gap : ℚ) (k : ℕ)
    (hj : k < jv.times.length) (hg : gap ≠ 0) :
    gageAccept1 jv ts gap false k =
      if jv.flags.getD k false then
        (if listMin (ts.map (fun x => |x - jv.times.getD k 0|)) ≤ (3 / 10) * gap then
          ⟨true, (idxOfMin (ts.map (fun x => |x - jv.times.getD k 0|)) : ℤ), true, false⟩
         else ⟨false, -1, false, true⟩)
      else ⟨false, -1, false, false⟩ := by
  simp only [gageAccept1, Bool.false_eq_true, if_false, if_pos hj, if_neg hg]

/-- **C2 amended** (nearest-match as implemented): when a previously
unlocked secondary shot `k` is re-evaluated with reference data present
at index `k` and the SECONDARY stream's own period estimate nonzero, the
code computes `d = min_i |secondary_t[i] - reference_t[k]|` over the
secondary stream's OWN indices `i`; the shot is accepted iff
`d <= 0.3 * secondary_period` AND the reference SpacingFlag at index `k`
(not at the matched index) is true; and on acceptance the match entry at
`k` records the first secondary index achieving the minimum — a
secondary-stream index, not a reference index. -/
theorem nearest_match_amended (jv : JkamState) (bs : BinState) (gs : GageState) (k : ℕ) :
    (k < bs.times.length → bs.finalAccepted.getD k false = false →
      k < jv.times.length → binGap bs.times ≠ 0 →
      ((binRerun jv bs).mask.getD k false =
        (decide (listMin (bs.times.map (fun x => |x - jv.times.getD k 0|)) ≤
          (3 / 10) * binGap bs.times) && jv.flags.getD k false) ∧
      ((binRerun jv bs).mask.getD k false = true →
        (binRerun jv bs).matchlist.getD k (-1) =
          (idxOfMin (bs.times.map (fun x => |x - jv.times.getD k 0|)) : ℤ) ∧
        idxOfMin (bs.times.map (fun x => |x - jv.times.getD k 0|)) < bs.times.length ∧
        |bs.times.getD (idxOfMin (bs.times.map (fun x => |x - jv.times.getD k 0|))) 0 -
            jv.times.getD k 0| =
          listMin (bs.times.map (fun x => |x - jv.times.getD k 0|)) ∧
        (∀ j, j < bs.times.length →
          listMin (bs.times.map (fun x => |x - jv.times.getD k 0|)) ≤
            |bs.times.getD j 0 - jv.times.getD k 0|) ∧
        (∀ j, j < idxOfMin (bs.times.map (fun x => |x - jv.times.getD k 0|)) →
          listMin (bs.times.map (fun x => |x - jv.times.getD k 0|)) <
            |bs.times.getD j 0 - jv.times.getD k 0|)))) ∧
    (k < gs.times.length → gs.finalAccepted.getD k false = false →
      k < jv.times.length → gageGap gs.times ≠ 0 →
      ((gageRerun jv gs).mask.getD k false =
        (jv.flags.getD k false &&
          decide (listMin (gs.times.map (fun x => |x - jv.times.getD k 0|)) ≤
            (3 / 10) * gageGap gs.times)) ∧
      ((gageRerun jv gs).mask.getD k false = true →
        (gageRerun jv gs).matchlist.getD k (-1) =
          (idxOfMin (gs.times.map (fun x => |x - jv.times.getD k 0|)) : ℤ) ∧
        idxOfMin (gs.times.map (fun x => |x - jv.times.getD k 0|)) < gs.times.length ∧
        (∀ j, j < gs.times.length →
          listMin (gs.times.map (fun x => |x - jv.times.getD k 0|)) ≤
            |gs.times.getD j 0 - jv.times.getD k 0|)))) := by
  constructor
  · intro hk hfa hj hg
    have hfa0 : (padFalse bs.finalAccepted bs.times.length).getD k false = false := by
      rw [padFalse_getD]
      exact hfa
    have htne : bs.times ≠ [] := List.length_pos.mp (by omega)
    have hne : bs.times.map (fun x => |x - jv.times.getD k 0|) ≠ [] := by
      rw [Ne, List.map_eq_nil_iff]
      exact htne
    have hDlen : (bs.times.map (fun x => |x - jv.times.getD k 0|)).length =
        bs.times.length := List.length_map _ _
    constructor
    · rw [binRerun_mask_getD, if_pos hk, hfa0,
        binAccept1_unlocked jv bs.times (binGap bs.times) k hj hg]
      cases hsc : jv.flags.getD k false with
      | false => rw [if_neg (fun hc => Bool.false_ne_true hc.2), Bool.and_false]
      | true =>
        by_cases hA : listMin (bs.times.map (fun x => |x - jv.times.getD k 0|)) ≤
            (3 / 10) * binGap bs.times
        · rw [if_pos ⟨hA, rfl⟩, Bool.and_true, decide_eq_true hA]
        · rw [if_neg (fun hc => hA hc.1), Bool.and_true, decide_eq_false hA]
    · intro hacc
      have hcond : listMin (bs.times.map (fun x => |x - jv.times.getD k 0|)) ≤
          (3 / 10) * binGap bs.times ∧ jv.flags.getD k false = true := by
        by_contra hc
        rw [binRerun_mask_getD, if_pos hk, hfa0,
          binAccept1_unlocked jv bs.times (binGap bs.times) k hj hg, if_neg hc] at hacc
        simp at hacc
      have hspec := idxOfMin_spec _ hne
      have hidx : idxOfMin (bs.times.map (fun x => |x - jv.times.getD k 0|)) <
          bs.times.length := by
        rw [← hDlen]
        exact hspec.1
      refine ⟨?_, hidx, ?_, ?_, ?_⟩
      · rw [binRerun_matchlist_getD, if_pos hk, hfa0,
          binAccept1_unlocked jv bs.times (binGap bs.times) k hj hg, if_pos hcond]
      · rw [← getD_map_abs bs.times (jv.times.getD k 0) _ hidx]
        exact hspec.2.1
      · intro j hjlt
        rw [← getD_map_abs bs.times (jv.times.getD k 0) j hjlt]
        refine hspec.2.2.1 j ?_
        rw [hDlen]
        exact hjlt
      · intro j hjlt
        rw [← getD_map_abs bs.times (jv.times.getD k 0) j (by omega)]
        exact hspec.2.2.2 j hjlt
  · intro hk hfa hj hg
    have hfa0 : (padFalse gs.finalAccepted gs.times.length).getD k false = false := by
      rw [padFalse_getD]
      exact hfa
    have htne : gs.times ≠ [] := List.length_pos.mp (by omega)
    have hne : gs.times.map (fun x => |x - jv.times.getD k 0|) ≠ [] := by
      rw [Ne, List.map_eq_nil_iff]
      exact htne
    have hDlen : (gs.times.map (fun x => |x - jv.times.getD k 0|)).length =
        gs.times.length := List.length_map _ _
    constructor
    · rw [gageRerun_mask_getD, if_pos hk, hfa0,
        gageAccept1_unlocked jv gs.times (gageGap gs.times) k hj hg]
      cases hsc : jv.flags.getD k false with
      | false => rw [if_neg Bool.false_ne_true, Bool.false_and]
      | true =>
        rw [if_pos rfl, Bool.true_and]
        by_cases hA : listMin (gs.times.map (fun x => |x - jv.times.getD k 0|)) ≤
            (3 / 10) * gageGap gs.times
        · rw [if_pos hA, decide_eq_true hA]
        · rw [if_neg hA, decide_eq_false hA]
    · intro hacc
      have hcond : jv.flags.getD k false = true ∧
          listMin (gs.times.map (fun x => |x - jv.times.getD k 0|)) ≤
            (3 / 10) * gageGap gs.times := by
        by_cases hsc : jv.flags.getD k false
        · by_cases hA : listMin (gs.times.map (fun x => |x - jv.times.getD k 0|)) ≤
              (3 / 10) * gageGap gs.times
          · exact ⟨hsc, hA⟩
          · rw [gageRerun_mask_getD, if_pos hk, hfa0,
              gageAccept1_unlocked jv gs.times (gageGap gs.times) k hj hg,
              if_pos hsc, if_neg hA] at hacc
            simp at hacc
        · rw [gageRerun_mask_getD, if_pos hk, hfa0,
            gageAccept1_unlocked jv gs.times (gageGap gs.times) k hj hg,
            if_neg hsc] at hacc
          simp at hacc
      have hspec := idxOfMin_spec _ hne
      have hidx : idxOfMin (gs.times.map (fun x => |x - jv.times.getD k 0|)) <
          gs.times.length := by
        rw [← hDlen]
        exact hspec.1
      refine ⟨?_, hidx, ?_⟩
      · rw [gageRerun_matchlist_getD, if_pos hk, hfa0,
          gageAccept1_unlocked jv gs.times (gageGap gs.times) k hj hg,
          if_pos hcond.1, if_pos hcond.2]
      · intro j hjlt
        rw [← getD_map_abs gs.times (jv.times.getD k 0) j hjlt]
        refine hspec.2.2.1 j ?_
        rw [hDlen]
        exact hjlt

/-- Witness for the amended C2: the FPGA shot 1 of `witnessBin` against
the reference `witnessJkam` is evaluated by the implemented rule. -/
theorem nearest_match_amended_witness :
    binGap witnessBin.times ≠ 0 ∧
    (binRerun witnessJkam witnessBin).mask.getD 1 false =
      (decide (listMin (witnessBin.times.map
          (fun x => |x - witnessJkam.times.getD 1 0|)) ≤
        (3 / 10) * binGap witnessBin.times) && witnessJkam.flags.getD 1 false) := by
  have hg : binGap witnessBin.times ≠ 0 := by
    norm_num [binGap, witnessBin]
  exact ⟨hg, ((nearest_match_amended witnessJkam witnessBin witnessGage 1).1
    (by decide) (by decide) (by decide) hg).1⟩

set_option maxHeartbeats 1000000 in
/-- Counterexample to **C2** as stated: on `nearestMatchEvents`, for
secondary (FPGA) shot 1 the reference period is defined (10), the
claim-side distance `d = min_j |secondary_t[1] - reference_t[j]|` over
REFERENCE indices `j` is `1/5 <= 0.3 * 10`, and the reference SpacingFlag
at the claim-side argmin (reference index 0) is true — so the claim says
the shot is accepted with matched reference index 0 — yet the code
rejects it (`mask_valid_data[1] = false`, matchlist entry `-1`). -/
theorem nearest_match_counterexample :
    (run SysState.init nearestMatchEvents).jkam.avgTimeGap = 10 ∧
    listMin ((run SysState.init nearestMatchEvents).jkam.times.map
      (fun tj => |(run SysState.init nearestMatchEvents).bin.times.getD 1 0 - tj|)) =
      1 / 5 ∧
    idxOfMin ((run SysState.init nearestMatchEvents).jkam.times.map
      (fun tj => |(run SysState.init nearestMatchEvents).bin.times.getD 1 0 - tj|)) = 0 ∧
    (run SysState.init nearestMatchEvents).jkam.flags.getD 0 false = true ∧
    (run SysState.init nearestMatchEvents).bin.mask.getD 1 false = false ∧
    (run SysState.init nearestMatchEvents).bin.matchlist.getD 1 0 = -1 := by
  refine ⟨?_, ?_, ?_, ?_, ?_, ?_⟩
  all_goals
    norm_num [run, step, nearestMatchEvents, jkamProcess, binProcess, binRerun,
      binGap, binAccept1, listMin, idxOfMin, idxOfMinAux, padFalse, emitFold,
      cumStep, cumulativeSeries, SysState.init, JkamState.init, BinState.init,
      GageState.init, RpState.init, List.foldl, List.range_succ, List.getD]
  all_goals norm_num [abs_of_nonneg, abs_of_nonpos]

/-!
## Match entries of locked shots
-/

/-- **C7 amended** (no match injectivity): distinct accepted secondary
shots MAY record the same matched index (see the counterexample); what
the code guarantees instead is that a recomputation pass resets the match
entry of every previously locked shot to the no-match sentinel `-1`, so
only the shots newly accepted during the latest pass carry a recorded
match at all. -/
theorem match_lock_reset (jv : JkamState) (bs : BinState) (gs : GageState) (k : ℕ) :
    (k < bs.times.length → bs.finalAccepted.getD k false = true →
      (binRerun jv bs).matchlist.getD k (-1) = -1) ∧
    (k < gs.times.length → gs.finalAccepted.getD k false = true →
      (gageRerun jv gs).matchlist.getD k (-1) = -1) := by
  constructor
  · intro hk hfa
    rw [binRerun_matchlist_getD, if_pos hk, padFalse_getD, hfa, binAccept1_locked]
  · intro hk hfa
    rw [gageRerun_matchlist_getD, if_pos hk, padFalse_getD, hfa, gageAccept1_locked]

/-- Witness for the amended C7: the locked FPGA shot 0 of `witnessBin`
loses its match entry on the next recomputation pass. -/
theorem match_lock_reset_witness :
    0 < witnessBin.times.length ∧
    witnessBin.finalAccepted.getD 0 false = true ∧
    (binRerun witnessJkam witnessBin).matchlist.getD 0 (-1) = -1 :=
  ⟨by decide, by decide,
    (match_lock_reset witnessJkam witnessBin witnessGage 0).1 (by decide) (by decide)⟩

set_option maxHeartbeats 1000000 in
/-- Counterexample to **C7** as stated: on `injectivityEvents`, FPGA
shots 0 and 1 are both accepted in the same recomputation pass and both
record matched index 0 — a reference shot is matched by two distinct
accepted secondary shots of the same stream, so the recorded matched
indices are not pairwise distinct. -/
theorem match_injectivity_counterexample :
    (run SysState.init injectivityEvents).bin.mask.getD 0 false = true ∧
    (run SysState.init injectivityEvents).bin.mask.getD 1 false = true ∧
    (run SysState.init injectivityEvents).bin.matchlist.getD 0 0 = 0 ∧
    (run SysState.init injectivityEvents).bin.matchlist.getD 1 0 = 0 := by
  refine ⟨?_, ?_, ?_, ?_⟩
  all_goals
    norm_num [run, step, injectivityEvents, jkamProcess, binProcess, binRerun,
      binGap, binAccept1, listMin, idxOfMin, idxOfMinAux, padFalse, emitFold,
      cumStep, cumulativeSeries, SysState.init, JkamState.init, BinState.init,
      GageState.init, RpState.init, List.foldl, List.range_succ, List.getD]

/-!
## Diagnostic deduplication
-/

lemma emitFold_inv (ks : List ℕ) : ∀ (rep log : List ℕ),
    log.Nodup → (∀ x, x ∈ log ↔ x ∈ rep) →
    (emitFold ks rep log).2.Nodup ∧
    (∀ x, x ∈ (emitFold ks rep log).2 ↔ x ∈ (emitFold ks rep log).1) := by
  induction ks with
  | nil => exact fun rep log h1 h2 => ⟨h1, h2⟩
  | cons k ks ih =>
    intro rep log h1 h2
    show (emitFold ks (if k ∈ rep then (rep, log) else (rep ++ [k], log ++ [k])).1
          (if k ∈ rep then (rep, log) else (rep ++ [k], log ++ [k])).2).2.Nodup ∧
      (∀ x, x ∈ (emitFold ks (if k ∈ rep then (rep, log) else (rep ++ [k], log ++ [k])).1
          (if k ∈ rep then (rep, log) else (rep ++ [k], log ++ [k])).2).2 ↔
        x ∈ (emitFold ks (if k ∈ rep then (rep, log) else (rep ++ [k], log ++ [k])).1
          (if k ∈ rep then (rep, log) else (rep ++ [k], log ++ [k])).2).1)
    by_cases hk : k ∈ rep
    · rw [if_pos hk]
      exact ih rep log h1 h2
    · rw [if_neg hk]
      refine ih (rep ++ [k]) (log ++ [k]) ?_ ?_
      · rw [List.nodup_append]
        refine ⟨h1, List.nodup_singleton k, ?_⟩
        intro x hx hx'
        rw [List.mem_singleton] at hx'
        subst hx'
        exact hk ((h2 x).mp hx)
      · intro x
        rw [List.mem_append, List.mem_append, h2 x]


lemma binProcess_log_inv (jv : JkamState) (s : BinState) (p : ℕ) (t : ℚ)
    (h1 : s.log.Nodup) (h2 : ∀ x, x ∈ s.log ↔ x ∈ s.reported) :
    (binProcess jv s p t).log.Nodup ∧
    (∀ x, x ∈ (binProcess jv s p t).log ↔ x ∈ (binProcess jv s p t).reported) := by
  unfold binProcess
  split
  · exact ⟨h1, h2⟩
  · exact emitFold_inv _ _ _ h1 h2

lemma gageProcess_log_inv (jv : JkamState) (s : GageState) (t : ℚ)
    (h1 : s.log.Nodup) (h2 : ∀ x, x ∈ s.log ↔ x ∈ s.reported) :
    (gageProcess jv s t).log.Nodup ∧
    (∀ x, x ∈ (gageProcess jv s t).log ↔ x ∈ (gageProcess jv s t).reported) := by
  unfold gageProcess
  split
  · exact ⟨h1, h2⟩
  · exact emitFold_inv _ _ _ h1 h2

lemma run_log_inv (es : List Event) : ∀ s : SysState,
    s.bin.log.Nodup → (∀ x, x ∈ s.bin.log ↔ x ∈ s.bin.reported) →
    s.gage.log.Nodup → (∀ x, x ∈ s.gage.log ↔ x ∈ s.gage.reported) →
    ((run s es).bin.log.Nodup ∧
      (∀ x, x ∈ (run s es).bin.log ↔ x ∈ (run s es).bin.reported)) ∧
    ((run s es).gage.log.Nodup ∧
      (∀ x, x ∈ (run s es).gage.log ↔ x ∈ (run s es).gage.reported)) := by
  induction es with
  | nil => exact fun s hb1 hb2 hg1 hg2 => ⟨⟨hb1, hb2⟩, hg1, hg2⟩
  | cons e es ih =>
    intro s hb1 hb2 hg1 hg2
    cases e with
    | jkam p t => exact ih (step s (Event.jkam p t)) hb1 hb2 hg1 hg2
    | fpga p t =>
      have h := binProcess_log_inv s.jkam s.bin p t hb1 hb2
      exact ih (step s (Event.fpga p t)) h.1 h.2 hg1 hg2
    | gage p t =>
      have h := gageProcess_log_inv s.jkam s.gage t hg1 hg2
      exact ih (step s (Event.gage p t)) hb1 hb2 h.1 h.2
    | rp p ts => exact ih (step s (Event.rp p ts)) hb1 hb2 hg1 hg2

/-- **C8 amended** (diagnostic deduplication): for the FPGA and GageScope
streams the match-failure diagnostic is emitted at most once per shot
index across all recomputation passes (the emitted log never contains a
duplicate index, and always coincides with the reported set); the Red
Pitaya handler, by contrast, re-emits its rejection diagnostic on every
recomputation pass (see the counterexample); rejection is a normal
outcome and is never surfaced as an exception. -/
theorem diagnostics_deduplicated (es : List Event) :
    (run SysState.init es).bin.log.Nodup ∧
    (∀ x, x ∈ (run SysState.init es).bin.log ↔ x ∈ (run SysState.init es).bin.reported) ∧
    (run SysState.init es).gage.log.Nodup ∧
    (∀ x, x ∈ (run SysState.init es).gage.log ↔ x ∈ (run SysState.init es).gage.reported) := by
  have h := run_log_inv es SysState.init List.nodup_nil (fun x => Iff.rfl)
    List.nodup_nil (fun x => Iff.rfl)
  exact ⟨h.1.1, h.1.2, h.2.1, h.2.2⟩

/-- Counterexample to **C8** as stated: on `rpLogEvents` the Red Pitaya
handler emits the rejection diagnostic for shot 0 twice — once on each of
the two recomputation passes — so the "at most once per shot index across
all recomputation passes" claim fails for the Red Pitaya stream. -/
theorem diagnostics_rp_counterexample :
    (run SysState.init rpLogEvents).rp.log = [0, 0] ∧
    ¬ (run SysState.init rpLogEvents).rp.log.count 0 ≤ 1 := by
  constructor <;> decide

end JkamDaq
